import Mathlib

/-!
Shallow embedding of the OCR quality-ensemble pipeline of
`src/liza_codex_pdf/web.py`, together with proofs of the spec's testable
properties about scoring, rescue escalation, word-box deduplication,
rotation geometry, the vertical-text filter, overlay preparation and
hidden-text injection.

Machine integers are modelled as `Nat`/`Int`; Python floats that only carry
confidences, ratios and page dimensions are modelled as `ℚ`; the one place
where exact IEEE-754 double behaviour is observable (the `int(width * 1.15)`
threshold of the vertical-text filter) is modelled bit-exactly.
-/

namespace LizaCodexPdf

/-! ### Character classes

The scoring and deduplication regexes of `web.py` operate over the class
`[A-Za-zА-Яа-я0-9]` (ASCII letters, the Cyrillic block U+0410–U+044F and
ASCII digits).  Python's Unicode `str.isalnum` is modelled restricted to
this same alphabet. -/

/-- ASCII Latin letter, `[A-Za-z]`. -/
def isLatin (c : Char) : Bool := c.isAlpha

/-- Cyrillic letter in the range `[А-Яа-я]` (U+0410–U+044F, contiguous). -/
def isCyr (c : Char) : Bool := 0x410 ≤ c.toNat && c.toNat ≤ 0x44F

/-- The regex character class `[A-Za-zА-Яа-я0-9]` used by `_dedupe_word_boxes`. -/
def isScriptChar (c : Char) : Bool := isLatin c || c.isDigit || isCyr c

/-- Python `str.isalnum`, restricted to the Latin/Cyrillic/digit alphabet the
scoring pipeline operates over. -/
def pyIsAlnum (c : Char) : Bool := c.isAlphanum || isCyr c

/-- Python `str.upper` on the characters kept by the dedup normalizer:
ASCII `a-z` and Cyrillic `а-я` (U+0430–U+044F) are upper-cased. -/
def pyUpper (c : Char) : Char :=
  if c.isLower then c.toUpper
  else if 0x430 ≤ c.toNat && c.toNat ≤ 0x44F then Char.ofNat (c.toNat - 0x20)
  else c

/-! ### `_analyze_ocr_pdf`: text scoring

`re.findall` with the patterns of `_analyze_ocr_pdf` is realised as
left-to-right maximal-munch scanners (the patterns have no constructs where
backtracking can produce anything but the maximal munch at the first
matching position; positions where no match starts are skipped one
character at a time, exactly as `findall` does). -/

/-- Start class of the generic token pattern `[A-Za-zА-Яа-я0-9]...`. -/
def isTokenStart (c : Char) : Bool := isLatin c || isCyr c || c.isDigit

/-- Continuation class `[A-Za-zА-Яа-я0-9._/\-]` of the generic token pattern. -/
def isTokenCont (c : Char) : Bool :=
  isTokenStart c || c == '.' || c == '_' || c == '/' || c == '-'

/-- `re.findall(r"[A-Za-zА-Яа-я0-9][A-Za-zА-Яа-я0-9._/\-]*", text)`:
leftmost, non-overlapping, greedy matches.  The fuel argument (instantiated
with the list length, an upper bound on the number of scan steps) makes the
recursion structural and hence executable. -/
def scanTokensF : ℕ → List Char → List (List Char)
  | 0, _ => []
  | _, [] => []
  | fuel + 1, c :: cs =>
    if isTokenStart c then
      (c :: cs.takeWhile isTokenCont) :: scanTokensF fuel (cs.dropWhile isTokenCont)
    else
      scanTokensF fuel cs

def scanTokens (cs : List Char) : List (List Char) := scanTokensF cs.length cs

/-- Tail class `[A-Za-z0-9._/\-]` of the engineering-token pattern. -/
def isTailChar (c : Char) : Bool :=
  isLatin c || c.isDigit || c == '.' || c == '_' || c == '/' || c == '-'

/-- The optional separator class `[-_/]` of the engineering-token pattern. -/
def isSepChar (c : Char) : Bool := c == '-' || c == '_' || c == '/'

/-- Length of the maximal run of `[A-Za-z]` at the head. -/
def letterRun (cs : List Char) : ℕ := (cs.takeWhile isLatin).length

/-- Length of the maximal run of `\d` at the head. -/
def digitRun (cs : List Char) : ℕ := (cs.takeWhile Char.isDigit).length

/-- Length of the maximal run of `[A-Za-z0-9._/\-]` at the head. -/
def tailRun (cs : List Char) : ℕ := (cs.takeWhile isTailChar).length

/-- One match attempt of the engineering-token pattern
`(?:[A-Za-z]{1,6}[-_/]?\d{1,8}[A-Za-z0-9._/\-]*)|(?:\d{1,8}[A-Za-z]{1,6}[A-Za-z0-9._/\-]*)`
at the head of `cs`, returning the length of the (unique possible) match.
Greedy `{1,6}`/`{1,8}` counters can only succeed by consuming the whole
run (a shorter prefix leaves the run's next character, which fits neither
the separator nor the next mandatory class), so runs longer than the
counter bound make the branch fail; digits and letters beyond the first
mandatory one are absorbed by the trailing `[A-Za-z0-9._/\-]*`. -/
def matchEngLen (cs : List Char) : Option ℕ :=
  let l := letterRun cs
  let branch2 : Option ℕ :=
    let r := digitRun cs
    if 1 ≤ r ∧ r ≤ 8 then
      match cs.drop r with
      | e :: _ => if isLatin e then some (r + tailRun (cs.drop r)) else none
      | [] => none
    else none
  if 1 ≤ l ∧ l ≤ 6 then
    match cs.drop l with
    | d :: rest2 =>
      if isSepChar d then
        match rest2 with
        | e :: _ => if e.isDigit then some (l + 1 + tailRun rest2) else branch2
        | [] => branch2
      else if d.isDigit then some (l + tailRun (cs.drop l))
      else branch2
    | [] => branch2
  else branch2

/-- `len(re.findall(eng_pattern, text))`: scan left to right, emitting a
match and jumping past it, or advancing one character.  Fuel as in
`scanTokensF`. -/
def scanEngF : ℕ → List Char → ℕ
  | 0, _ => 0
  | _, [] => 0
  | fuel + 1, c :: rest =>
    match matchEngLen (c :: rest) with
    | some n => 1 + scanEngF fuel (rest.drop (n - 1))
    | none => scanEngF fuel rest

def scanEng (cs : List Char) : ℕ := scanEngF cs.length cs

/-- One match of `\d+(?:[.,]\d+)?` at the head, returning its length. -/
def matchNumLen (cs : List Char) : Option ℕ :=
  let r := digitRun cs
  if 1 ≤ r then
    match cs.drop r with
    | s :: rest2 =>
      if (s == '.' || s == ',') && (rest2.takeWhile Char.isDigit).length ≥ 1 then
        some (r + 1 + (rest2.takeWhile Char.isDigit).length)
      else some r
    | [] => some r
  else none

/-- `len(re.findall(r"\d+(?:[.,]\d+)?", text))`.  Fuel as in `scanTokensF`. -/
def scanNumericF : ℕ → List Char → ℕ
  | 0, _ => 0
  | _, [] => 0
  | fuel + 1, c :: rest =>
    match matchNumLen (c :: rest) with
    | some n => 1 + scanNumericF fuel (rest.drop (n - 1))
    | none => scanNumericF fuel rest

def scanNumeric (cs : List Char) : ℕ := scanNumericF cs.length cs

/-- The `Analysis` record produced by `_analyze_ocr_pdf`. -/
structure Analysis where
  score : ℕ
  alnum_chars : ℕ
  token_count : ℕ
  eng_token_count : ℕ
  numeric_token_count : ℕ
deriving DecidableEq, Repr

/-- `_analyze_ocr_pdf`, from the extracted text onward (the pdfminer text
extraction itself is the external collaborator). -/
def analyze_ocr_pdf (text : List Char) : Analysis :=
  let alnum := (text.filter pyIsAlnum).length
  let tokens := (scanTokens text).filter (fun t => 2 ≤ t.length)
  let eng := scanEng text
  let numeric := scanNumeric text
  { score := alnum + 2 * tokens.length + 5 * eng
  , alnum_chars := alnum
  , token_count := tokens.length
  , eng_token_count := eng
  , numeric_token_count := numeric }

example : (analyze_ocr_pdf "AB-12 x 3.5".toList).eng_token_count = 1 := by decide
example : (analyze_ocr_pdf "AB-12 x 3.5".toList).numeric_token_count = 2 := by decide
example : (analyze_ocr_pdf "AB-12 x 3.5".toList).token_count = 2 := by decide
example : (analyze_ocr_pdf "AB-12 x 3.5".toList).alnum_chars = 7 := by decide

/-! ### `_candidate_selection_score`, `_should_run_rescue_pass`,
`_needs_manual_review` -/

/-- `_candidate_selection_score(analysis, drawing_mode=...)`. -/
def candidate_selection_score (analysis : Analysis) (drawing_mode : Bool) : ℤ :=
  if drawing_mode then
    (analysis.score : ℤ) + 65 * analysis.eng_token_count
      + 30 * analysis.numeric_token_count + 2 * analysis.token_count
  else
    (analysis.score : ℤ) + 20 * analysis.eng_token_count
      + 8 * analysis.numeric_token_count

/-- The coverage metrics consumed by the escalation decisions (the
`full_words` / `tile_words` / `combined_words` / `gain_ratio` entries of the
dict built by `_scan_page_coverage`; `gain_r` models the float `gain_ratio`
as a rational). -/
structure Coverage where
  full_words : ℕ
  tile_words : ℕ
  combined_words : ℕ
  gain_r : ℚ
deriving DecidableEq, Repr

/-- The two settings flags read by the escalation decisions. -/
structure Settings where
  drawing_mode : Bool
  deep_verify : Bool
deriving DecidableEq, Repr

/-- `_should_run_rescue_pass(analysis, coverage, settings)`.  The float
literal `0.35` is modelled as the rational `35/100`. -/
def should_run_rescue_pass (analysis : Analysis) (coverage : Coverage)
    (settings : Settings) : Bool :=
  if !settings.deep_verify then false
  else if settings.drawing_mode then
    let tile_bonus : ℤ := (coverage.tile_words : ℤ) - coverage.full_words
    if analysis.score < 420 then true
    else if analysis.eng_token_count < 8 && 25 ≤ coverage.tile_words then true
    else if coverage.combined_words < 55 then true
    else if 30 ≤ tile_bonus && (35 / 100 : ℚ) ≤ coverage.gain_r
        && analysis.score < 700 then true
    else false
  else
    decide (analysis.score < 120)

/-- `_needs_manual_review(analysis, coverage, settings)`.  The float literal
`1.2` is modelled as the rational `12/10`. -/
def needs_manual_review (analysis : Analysis) (coverage : Coverage)
    (settings : Settings) : Bool :=
  if settings.drawing_mode then
    if analysis.score < 260 then true
    else if analysis.eng_token_count < 6 && coverage.tile_words < 20 then true
    else if coverage.combined_words < 40 then true
    else if (12 / 10 : ℚ) < coverage.gain_r && coverage.combined_words < 120 then true
    else false
  else
    decide (analysis.score < 120)

/-! ### Claim theorems: C1, C2, C5 -/

/-- C1: every `Analysis` returned by `_analyze_ocr_pdf` satisfies
`score = alnum_chars + 2 * token_count + 5 * eng_token_count` exactly. -/
theorem analyze_ocr_pdf_score_invariant (text : List Char) :
    (analyze_ocr_pdf text).score =
      (analyze_ocr_pdf text).alnum_chars
        + 2 * (analyze_ocr_pdf text).token_count
        + 5 * (analyze_ocr_pdf text).eng_token_count := rfl

/-- Decision-table reading of `_should_run_rescue_pass` in drawing mode. -/
theorem should_run_rescue_pass_drawing_iff (a : Analysis) (coverage : Coverage)
    (settings : Settings)
    (hdeep : settings.deep_verify = true)
    (hdraw : settings.drawing_mode = true) :
    should_run_rescue_pass a coverage settings = true ↔
      a.score < 420
      ∨ (a.eng_token_count < 8 ∧ 25 ≤ coverage.tile_words)
      ∨ coverage.combined_words < 55
      ∨ (30 ≤ (coverage.tile_words : ℤ) - (coverage.full_words : ℤ)
          ∧ (35 / 100 : ℚ) ≤ coverage.gain_r ∧ a.score < 700) := by
  simp only [should_run_rescue_pass, hdeep, hdraw, Bool.not_true,
    Bool.false_eq_true, if_false, if_true]
  split_ifs with c1 c2 c3 c4
  · simp only [true_iff]
    exact Or.inl c1
  · simp only [true_iff]
    exact Or.inr (Or.inl (by simpa [Bool.and_eq_true, decide_eq_true_eq] using c2))
  · simp only [true_iff]
    exact Or.inr (Or.inr (Or.inl c3))
  · simp only [true_iff]
    exact Or.inr (Or.inr (Or.inr
      (by simpa [Bool.and_eq_true, decide_eq_true_eq, and_assoc] using c4)))
  · simp only [Bool.false_eq_true, false_iff, not_or]
    refine ⟨c1, ?_, c3, ?_⟩
    · simpa [Bool.and_eq_true, decide_eq_true_eq] using c2
    · simpa [Bool.and_eq_true, decide_eq_true_eq, and_assoc] using c4

/-- Decision-table reading of `_should_run_rescue_pass` in standard mode. -/
theorem should_run_rescue_pass_standard_iff (a : Analysis) (coverage : Coverage)
    (settings : Settings)
    (hdeep : settings.deep_verify = true)
    (hdraw : settings.drawing_mode = false) :
    should_run_rescue_pass a coverage settings = true ↔ a.score < 120 := by
  simp [should_run_rescue_pass, hdeep, hdraw]

/-- C2: with deep verification enabled (drawing or standard mode), the rescue
trigger is monotone in the score: if it fires for an analysis, it also fires
for any analysis with a strictly lower score, the same token counts, and the
same coverage metrics. -/
theorem should_run_rescue_pass_monotone (a a' : Analysis) (coverage : Coverage)
    (settings : Settings)
    (hdeep : settings.deep_verify = true)
    (hscore : a'.score < a.score)
    (_htok : a'.token_count = a.token_count)
    (heng : a'.eng_token_count = a.eng_token_count)
    (_hnum : a'.numeric_token_count = a.numeric_token_count)
    (hfire : should_run_rescue_pass a coverage settings = true) :
    should_run_rescue_pass a' coverage settings = true := by
  cases hdraw : settings.drawing_mode with
  | false =>
    rw [should_run_rescue_pass_standard_iff a coverage settings hdeep hdraw] at hfire
    rw [should_run_rescue_pass_standard_iff a' coverage settings hdeep hdraw]
    omega
  | true =>
    rw [should_run_rescue_pass_drawing_iff a coverage settings hdeep hdraw] at hfire
    rw [should_run_rescue_pass_drawing_iff a' coverage settings hdeep hdraw, heng]
    rcases hfire with h | h | h | h
    · exact Or.inl (by omega)
    · exact Or.inr (Or.inl h)
    · exact Or.inr (Or.inr (Or.inl h))
    · exact Or.inr (Or.inr (Or.inr ⟨h.1, h.2.1, by omega⟩))

/-- C5: in drawing mode, any page whose coverage reports fewer than 40
combined words is flagged for manual review, whatever the score and the
other metrics. -/
theorem needs_manual_review_low_combined (analysis : Analysis)
    (coverage : Coverage) (settings : Settings)
    (hdraw : settings.drawing_mode = true)
    (hcomb : coverage.combined_words < 40) :
    needs_manual_review analysis coverage settings = true := by
  simp only [needs_manual_review, hdraw, if_true]
  by_cases h1 : analysis.score < 260
  · simp [h1]
  · rw [if_neg h1]
    by_cases h2 : (decide (analysis.eng_token_count < 6)
        && decide (coverage.tile_words < 20)) = true
    · simp [h2]
    · rw [if_neg (by simp_all), if_pos hcomb]

/-- Witness for C2 at a concrete input: a drawing-mode analysis with score
400 triggers rescue, and so does the same analysis with score 150. -/
theorem should_run_rescue_pass_monotone_witness :
    ({ drawing_mode := true, deep_verify := true : Settings }.deep_verify = true)
    ∧ ((150 : ℕ) < 400)
    ∧ should_run_rescue_pass
        { score := 400, alnum_chars := 300, token_count := 20,
          eng_token_count := 9, numeric_token_count := 2 }
        { full_words := 80, tile_words := 90, combined_words := 100, gain_r := 1 / 8 }
        { drawing_mode := true, deep_verify := true } = true
    ∧ should_run_rescue_pass
        { score := 150, alnum_chars := 50, token_count := 20,
          eng_token_count := 9, numeric_token_count := 2 }
        { full_words := 80, tile_words := 90, combined_words := 100, gain_r := 1 / 8 }
        { drawing_mode := true, deep_verify := true } = true := by
  refine ⟨rfl, by decide, by decide, ?_⟩
  exact should_run_rescue_pass_monotone
    { score := 400, alnum_chars := 300, token_count := 20,
      eng_token_count := 9, numeric_token_count := 2 }
    { score := 150, alnum_chars := 50, token_count := 20,
      eng_token_count := 9, numeric_token_count := 2 }
    { full_words := 80, tile_words := 90, combined_words := 100, gain_r := 1 / 8 }
    { drawing_mode := true, deep_verify := true }
    rfl (by decide) rfl rfl rfl (by decide)

/-- Witness for C5 at a concrete input: a drawing-mode page with
`combined_words = 30` and an otherwise strong analysis is still flagged. -/
theorem needs_manual_review_low_combined_witness :
    (({ drawing_mode := true, deep_verify := true : Settings }).drawing_mode = true)
    ∧ ((30 : ℕ) < 40)
    ∧ needs_manual_review
        { score := 5000, alnum_chars := 4000, token_count := 300,
          eng_token_count := 80, numeric_token_count := 40 }
        { full_words := 200, tile_words := 220, combined_words := 30, gain_r := 1 / 10 }
        { drawing_mode := true, deep_verify := true } = true := by
  refine ⟨rfl, by decide, ?_⟩
  exact needs_manual_review_low_combined
    { score := 5000, alnum_chars := 4000, token_count := 300,
      eng_token_count := 80, numeric_token_count := 40 }
    { full_words := 200, tile_words := 220, combined_words := 30, gain_r := 1 / 10 }
    { drawing_mode := true, deep_verify := true }
    rfl (by decide)

/-! ### `WordBox` and `_dedupe_word_boxes` -/

/-- `WordBox = tuple[int, int, int, int, str, float]`: pixel coordinates,
text and detector confidence (the float confidence is modelled as `ℚ`). -/
structure WordBox where
  left : ℤ
  top : ℤ
  width : ℤ
  height : ℤ
  text : List Char
  conf : ℚ
deriving DecidableEq, Repr

/-- `re.sub(r"[^A-Za-zА-Яа-я0-9]", "", text).upper()`. -/
def normalize_box_text (text : List Char) : List Char :=
  (text.filter isScriptChar).map pyUpper

/-- The dict key `(normalized, left // 6, top // 6)` of `_dedupe_word_boxes`
(`//` is Python floor division, i.e. `Int.fdiv`). -/
def boxKey (b : WordBox) : List Char × ℤ × ℤ :=
  (normalize_box_text b.text, b.left.fdiv 6, b.top.fdiv 6)

/-- One `dedup[key] = box` step on the insertion-ordered association list
that models the Python dict: a new key is appended, an existing key's value
is replaced in place when the new confidence is strictly higher. -/
def insertBox : List WordBox → WordBox → List WordBox
  | [], b => [b]
  | x :: xs, b =>
    if boxKey x = boxKey b then
      (if x.conf < b.conf then b :: xs else x :: xs)
    else
      x :: insertBox xs b

/-- The iteration of `_dedupe_word_boxes`: boxes whose normalized text is
empty are skipped, the rest are inserted keyed by `boxKey`. -/
def dedupeAux (acc : List WordBox) : List WordBox → List WordBox
  | [] => acc
  | b :: bs =>
    if normalize_box_text b.text = [] then dedupeAux acc bs
    else dedupeAux (insertBox acc b) bs

/-- `_dedupe_word_boxes(boxes)`; the result order is the dict's insertion
order, as `list(dedup.values())` returns it. -/
def dedupe_word_boxes (boxes : List WordBox) : List WordBox :=
  dedupeAux [] boxes

example :
    dedupe_word_boxes
      [ { left := 10, top := 10, width := 20, height := 10,
          text := "TAG-101".toList, conf := 90 },
        { left := 11, top := 10, width := 20, height := 10,
          text := "TAG-101".toList, conf := 80 } ] =
      [ { left := 10, top := 10, width := 20, height := 10,
          text := "TAG-101".toList, conf := 90 } ] := by decide

/-- Members of `insertBox acc b` come from `acc` or are `b` itself. -/
theorem mem_insertBox {acc : List WordBox} {b y : WordBox}
    (hy : y ∈ insertBox acc b) : y ∈ acc ∨ y = b := by
  induction acc with
  | nil => simpa [insertBox] using hy
  | cons x xs ih =>
    simp only [insertBox] at hy
    by_cases hk : boxKey x = boxKey b
    · rw [if_pos hk] at hy
      by_cases hc : x.conf < b.conf
      · rw [if_pos hc] at hy
        rcases List.mem_cons.mp hy with h | h
        · exact Or.inr h
        · exact Or.inl (List.mem_cons_of_mem _ h)
      · rw [if_neg hc] at hy
        exact Or.inl hy
    · rw [if_neg hk] at hy
      rcases List.mem_cons.mp hy with h | h
      · exact Or.inl (by simp [h])
      · rcases ih h with h' | h'
        · exact Or.inl (List.mem_cons_of_mem _ h')
        · exact Or.inr h'

/-- The key multiset of `insertBox`: replacement preserves the keys,
insertion of a fresh key appends it. -/
theorem map_boxKey_insertBox (acc : List WordBox) (b : WordBox) :
    (insertBox acc b).map boxKey =
      if boxKey b ∈ acc.map boxKey then acc.map boxKey
      else acc.map boxKey ++ [boxKey b] := by
  induction acc with
  | nil => simp [insertBox]
  | cons x xs ih =>
    simp only [insertBox, List.map_cons, List.mem_cons]
    by_cases hk : boxKey x = boxKey b
    · rw [if_pos hk]
      by_cases hc : x.conf < b.conf
      · rw [if_pos hc, if_pos (Or.inl hk.symm)]
        simp [hk]
      · rw [if_neg hc, if_pos (Or.inl hk.symm)]
        simp
    · rw [if_neg hk, List.map_cons, ih]
      by_cases hmem : boxKey b ∈ xs.map boxKey
      · rw [if_pos hmem, if_pos (Or.inr hmem)]
      · rw [if_neg hmem, if_neg ?_]
        · simp
        · rintro (h | h)
          · exact hk h.symm
          · exact hmem h

/-- If the key of `b` is not yet present, `insertBox` appends `b`. -/
theorem insertBox_of_not_mem {acc : List WordBox} {b : WordBox}
    (h : boxKey b ∉ acc.map boxKey) : insertBox acc b = acc ++ [b] := by
  induction acc with
  | nil => simp [insertBox]
  | cons x xs ih =>
    simp only [List.map_cons, List.mem_cons, not_or] at h
    have hk : ¬ boxKey x = boxKey b := fun hk => h.1 hk.symm
    simp only [insertBox, if_neg hk, List.cons_append]
    rw [ih h.2]

/-- Invariant of `dedupeAux`: every stored box has non-empty normalized
text and the stored keys are pairwise distinct. -/
theorem dedupeAux_invariant (l : List WordBox) :
    ∀ acc : List WordBox,
      (∀ x ∈ acc, normalize_box_text x.text ≠ []) →
      (acc.map boxKey).Nodup →
      (∀ x ∈ dedupeAux acc l, normalize_box_text x.text ≠ [])
        ∧ ((dedupeAux acc l).map boxKey).Nodup := by
  induction l with
  | nil => intro acc h1 h2; exact ⟨h1, h2⟩
  | cons b bs ih =>
    intro acc h1 h2
    by_cases hb : normalize_box_text b.text = []
    · simpa [dedupeAux, hb] using ih acc h1 h2
    · simp only [dedupeAux, if_neg hb]
      refine ih (insertBox acc b) ?_ ?_
      · intro x hx
        rcases mem_insertBox hx with h | h
        · exact h1 x h
        · rw [h]; exact hb
      · rw [map_boxKey_insertBox]
        by_cases hmem : boxKey b ∈ acc.map boxKey
        · rwa [if_pos hmem]
        · rw [if_neg hmem]
          refine List.Nodup.append h2 (List.nodup_singleton _) ?_
          intro k hk1 hk2
          rw [List.mem_singleton] at hk2
          exact hmem (hk2 ▸ hk1)

/-- Running `dedupeAux` over a list whose members all have non-empty
normalized text and pairwise distinct keys appends it unchanged. -/
theorem dedupeAux_of_nodup (l : List WordBox) :
    ∀ acc : List WordBox,
      (∀ x ∈ l, normalize_box_text x.text ≠ []) →
      ((acc ++ l).map boxKey).Nodup →
      dedupeAux acc l = acc ++ l := by
  induction l with
  | nil => intro acc _ _; simp [dedupeAux]
  | cons b bs ih =>
    intro acc hne hnd
    have hb : normalize_box_text b.text ≠ [] := hne b (List.mem_cons_self _ _)
    have hkey : boxKey b ∉ acc.map boxKey := by
      intro hmem
      rw [List.map_append, List.nodup_append] at hnd
      exact hnd.2.2 hmem (by simp)
    simp only [dedupeAux, if_neg hb]
    rw [insertBox_of_not_mem hkey]
    have : dedupeAux (acc ++ [b]) bs = (acc ++ [b]) ++ bs := by
      refine ih (acc ++ [b]) (fun x hx => hne x (List.mem_cons_of_mem _ hx)) ?_
      have hperm : acc ++ b :: bs = (acc ++ [b]) ++ bs := by simp
      rw [← hperm]
      exact hnd
    rw [this]
    simp

/-- C3: `_dedupe_word_boxes` is idempotent — deduping an already-deduped
list returns it unchanged (in particular, the same set of boxes). -/
theorem dedupe_word_boxes_idempotent (boxes : List WordBox) :
    dedupe_word_boxes (dedupe_word_boxes boxes) = dedupe_word_boxes boxes := by
  have hinv := dedupeAux_invariant boxes [] (by simp) (by simp)
  have := dedupeAux_of_nodup (dedupe_word_boxes boxes) [] hinv.1 (by simpa using hinv.2)
  simpa [dedupe_word_boxes] using this

/-- C9: `_dedupe_word_boxes` also filters: a box whose text has no Latin,
Cyrillic, or digit character never survives deduplication, and a singleton
list holding a punctuation-only box dedupes to the empty list. -/
theorem dedupe_word_boxes_drops_scriptless :
    (∀ (boxes : List WordBox) (b : WordBox),
        (∀ c ∈ b.text, isScriptChar c = false) → b ∉ dedupe_word_boxes boxes)
    ∧ dedupe_word_boxes
        [ { left := 0, top := 0, width := 5, height := 5,
            text := "!?.,".toList, conf := 42 } ] = [] := by
  constructor
  · intro boxes b hb hmem
    have hnorm : normalize_box_text b.text = [] := by
      have : b.text.filter isScriptChar = [] := by
        rw [List.filter_eq_nil_iff]
        intro c hc
        simp [hb c hc]
      simp [normalize_box_text, this]
    exact (dedupeAux_invariant boxes [] (by simp) (by simp)).1 b hmem hnorm
  · decide

/-- Witness for C9 at a concrete input. -/
theorem dedupe_word_boxes_drops_scriptless_witness :
    (∀ c ∈ ("!?.,".toList : List Char), isScriptChar c = false)
    ∧ ({ left := 0, top := 0, width := 5, height := 5,
          text := "!?.,".toList, conf := 42 } : WordBox) ∉
        dedupe_word_boxes
          [ { left := 0, top := 0, width := 5, height := 5,
              text := "!?.,".toList, conf := 42 } ] := by
  refine ⟨by decide, ?_⟩
  exact dedupe_word_boxes_drops_scriptless.1
    [ { left := 0, top := 0, width := 5, height := 5,
        text := "!?.,".toList, conf := 42 } ]
    { left := 0, top := 0, width := 5, height := 5,
      text := "!?.,".toList, conf := 42 }
    (by decide)

/-! ### `_map_rotated_box_to_original` -/

/-- `_map_rotated_box_to_original`: maps a box detected on an image rotated
by 90° or 270° back into the original frame, clamped to the original
bounds; any other angle yields `None`. -/
def map_rotated_box_to_original (left top width height : ℤ) (text : List Char)
    (conf : ℚ) (original_width original_height : ℤ) (angle : ℤ) :
    Option WordBox :=
  if angle = 90 then
    let mapped_left := original_width - (top + height)
    let mapped_top := left
    let l := max 0 (min (original_width - 1) mapped_left)
    let t := max 0 (min (original_height - 1) mapped_top)
    some { left := l, top := t,
           width := max 1 (min height (original_width - l)),
           height := max 1 (min width (original_height - t)),
           text := text, conf := conf }
  else if angle = 270 then
    let mapped_left := top
    let mapped_top := original_height - (left + width)
    let l := max 0 (min (original_width - 1) mapped_left)
    let t := max 0 (min (original_height - 1) mapped_top)
    some { left := l, top := t,
           width := max 1 (min height (original_width - l)),
           height := max 1 (min width (original_height - t)),
           text := text, conf := conf }
  else none

example :
    map_rotated_box_to_original 10 20 30 40 "TXT".toList 88 200 100 90 =
      some { left := 140, top := 10, width := 40, height := 30,
             text := "TXT".toList, conf := 88 } := by decide

example :
    map_rotated_box_to_original 10 20 30 40 "TXT".toList 88 200 100 270 =
      some { left := 20, top := 60, width := 40, height := 30,
             text := "TXT".toList, conf := 88 } := by decide

/-- Mapping a box `b` through an angle with the same original dimensions as
`b` was mapped with, as the claim words it. -/
def mapAgain (b : WordBox) (original_width original_height angle : ℤ) :
    Option WordBox :=
  map_rotated_box_to_original b.left b.top b.width b.height b.text b.conf
    original_width original_height angle

/-- C4 counterexample: on a non-square 200×100 image, the in-bounds box
`(10, 20, 30, 40)` maps through 90° to `(140, 10, 40, 30)`, and mapping
that result through 270° **with the same original width and height** yields
`(10, 0, 30, 40)` — its `top` is 0 instead of the original 20, far beyond
any rounding slack (the coordinates are integers, so no rounding occurs at
all). -/
theorem map_rotated_round_trip_same_dims_fails :
    (0 ≤ (10 : ℤ) ∧ 0 ≤ (20 : ℤ) ∧ 10 + 30 ≤ (100 : ℤ) ∧ 20 + 40 ≤ (200 : ℤ)
      ∧ 10 + 30 ≤ (200 : ℤ) ∧ 20 + 40 ≤ (100 : ℤ))
    ∧ map_rotated_box_to_original 10 20 30 40 "TXT".toList 88 200 100 90 =
        some { left := 140, top := 10, width := 40, height := 30,
               text := "TXT".toList, conf := 88 }
    ∧ mapAgain { left := 140, top := 10, width := 40, height := 30,
                 text := "TXT".toList, conf := 88 } 200 100 270 =
        some { left := 10, top := 0, width := 30, height := 40,
               text := "TXT".toList, conf := 88 }
    ∧ ((20 : ℤ) - 0 > 1) := by
  refine ⟨by decide, by decide, by decide, by decide⟩

/-- C4 (amended): the round trip is exact once the second mapping swaps the
original dimensions — a box detected on the rotated copy of a `W×H` image
(so `left + width ≤ H` and `top + height ≤ W`) maps through 90° with
dimensions `(W, H)` and back through 270° with dimensions `(H, W)` to
exactly itself, and likewise in the order 270° then 90°. -/
theorem map_rotated_round_trip_swapped_dims (left top width height : ℤ)
    (text : List Char) (conf : ℚ) (W H : ℤ)
    (hl : 0 ≤ left) (ht : 0 ≤ top) (hw : 1 ≤ width) (hh : 1 ≤ height)
    (hlw : left + width ≤ H) (hth : top + height ≤ W) :
    ((map_rotated_box_to_original left top width height text conf W H 90).bind
        (fun b => mapAgain b H W 270)) =
      some { left := left, top := top, width := width, height := height,
             text := text, conf := conf }
    ∧ ((map_rotated_box_to_original left top width height text conf W H 270).bind
        (fun b => mapAgain b H W 90)) =
      some { left := left, top := top, width := width, height := height,
             text := text, conf := conf } := by
  have h90ne : ¬ ((90 : ℤ) = 270) := by norm_num
  have h270ne : ¬ ((270 : ℤ) = 90) := by norm_num
  have step1 : map_rotated_box_to_original left top width height text conf W H 90 =
      some { left := W - (top + height), top := left, width := height,
             height := width, text := text, conf := conf } := by
    simp only [map_rotated_box_to_original, if_pos rfl, if_true,
      Option.some.injEq, WordBox.mk.injEq, and_true]
    omega
  have step2 : map_rotated_box_to_original (W - (top + height)) left height width
      text conf H W 270 =
      some { left := left, top := top, width := width, height := height,
             text := text, conf := conf } := by
    simp only [map_rotated_box_to_original, if_neg h270ne, if_false, if_pos rfl,
      if_true, Option.some.injEq, WordBox.mk.injEq, and_true]
    omega
  have step3 : map_rotated_box_to_original left top width height text conf W H 270 =
      some { left := top, top := H - (left + width), width := height,
             height := width, text := text, conf := conf } := by
    simp only [map_rotated_box_to_original, if_neg h270ne, if_false, if_pos rfl,
      if_true, Option.some.injEq, WordBox.mk.injEq, and_true]
    omega
  have step4 : map_rotated_box_to_original top (H - (left + width)) height width
      text conf H W 90 =
      some { left := left, top := top, width := width, height := height,
             text := text, conf := conf } := by
    simp only [map_rotated_box_to_original, if_pos rfl, if_true,
      Option.some.injEq, WordBox.mk.injEq, and_true]
    omega
  constructor
  · rw [step1, Option.some_bind]
    simpa [mapAgain] using step2
  · rw [step3, Option.some_bind]
    simpa [mapAgain] using step4

/-- Witness for the amended C4 at a concrete input. -/
theorem map_rotated_round_trip_swapped_dims_witness :
    ((0 : ℤ) ≤ 10 ∧ (0 : ℤ) ≤ 20 ∧ (1 : ℤ) ≤ 30 ∧ (1 : ℤ) ≤ 40
      ∧ (10 : ℤ) + 30 ≤ 100 ∧ (20 : ℤ) + 40 ≤ 200)
    ∧ ((map_rotated_box_to_original 10 20 30 40 "TXT".toList 88 200 100 90).bind
          (fun b => mapAgain b 100 200 270)) =
        some { left := 10, top := 20, width := 30, height := 40,
               text := "TXT".toList, conf := 88 }
    ∧ ((map_rotated_box_to_original 10 20 30 40 "TXT".toList 88 200 100 270).bind
          (fun b => mapAgain b 100 200 90)) =
        some { left := 10, top := 20, width := 30, height := 40,
               text := "TXT".toList, conf := 88 } := by
  refine ⟨by decide, ?_⟩
  exact map_rotated_round_trip_swapped_dims 10 20 30 40 "TXT".toList 88 200 100
    (by decide) (by decide) (by decide) (by decide) (by decide) (by decide)

/-! ### `_extract_word_boxes_rotated` and the vertical-aspect filter

The filter discards a mapped box when
`mapped_height < int(mapped_width * 1.15)`.  The literal `1.15` is the IEEE
double `2589569785738035 * 2^-51`; the product with the (exactly converted)
integer width is rounded to nearest-even over a 53-bit significand and the
result truncated towards zero.  `pyTrunc115` reproduces that value exactly
for `0 ≤ w < 2^53`, the regime in which an `int` converts to a double
without rounding (image widths are far below this). -/

/-- The significand of the IEEE-754 double nearest `1.15`;
`1.15 = pyDouble115Num * 2^-51` as doubles. -/
def pyDouble115Num : ℕ := 2589569785738035

/-- Floor of the base-2 logarithm, fuel-based so that it is kernel-reducible
(`log2F n n` works for every `n`, as the halving depth is at most `n`). -/
def log2F : ℕ → ℕ → ℕ
  | 0, _ => 0
  | f + 1, n => if n ≤ 1 then 0 else 1 + log2F f (n / 2)

/-- Round `num / 2^shift` to the nearest integer, ties to even. -/
def roundHalfEvenDiv (num : ℕ) (shift : ℕ) : ℕ :=
  let q := num / 2 ^ shift
  let r := num % 2 ^ shift
  if 2 ^ shift < 2 * r then q + 1
  else if 2 * r = 2 ^ shift ∧ q % 2 = 1 then q + 1
  else q

/-- `int(w * 1.15)` for a nonnegative machine integer `w`: the exact product
`w * pyDouble115Num * 2^-51` is rounded to a 53-bit significand
(nearest-even) and truncated, exactly as the double multiplication does for
`0 ≤ w < 2^53` (image widths are far below this). -/
def pyTrunc115Nat (w : ℕ) : ℕ :=
  let num := w * pyDouble115Num
  if num = 0 then 0
  else
    let k := log2F num num
    if k ≤ 52 then num / 2 ^ 51
    else roundHalfEvenDiv num (k - 52) * 2 ^ (k - 52) / 2 ^ 51

/-- `int(w * 1.15)` on `ℤ` (`int()` truncates towards zero, and both the
double product and the rounding are symmetric under negation). -/
def pyTrunc115 (w : ℤ) : ℤ :=
  if 0 ≤ w then (pyTrunc115Nat w.toNat : ℤ) else -(pyTrunc115Nat (-w).toNat : ℤ)

example : pyTrunc115 7 = 8 := by decide
example : pyTrunc115 10 = 11 := by decide
example : pyTrunc115 20 = 23 := by decide
example : pyTrunc115 100 = 114 := by decide
example : pyTrunc115 27 = 31 := by decide

/-- The mapping-and-filtering loop of `_extract_word_boxes_rotated`, applied
to the boxes detected on the rotated image: each box is mapped back to the
original frame, and (when `keep_vertical_only` is set) dropped if its mapped
height is below the float-truncated `1.15 ×` mapped-width threshold. -/
def extract_word_boxes_rotated (original_width original_height angle : ℤ)
    (keep_vertical_only : Bool) : List WordBox → List WordBox
  | [] => []
  | b :: rest =>
    match map_rotated_box_to_original b.left b.top b.width b.height b.text b.conf
        original_width original_height angle with
    | none => extract_word_boxes_rotated original_width original_height angle
        keep_vertical_only rest
    | some m =>
      if keep_vertical_only = true ∧ m.height < pyTrunc115 m.width then
        extract_word_boxes_rotated original_width original_height angle
          keep_vertical_only rest
      else
        m :: extract_word_boxes_rotated original_width original_height angle
          keep_vertical_only rest

theorem extract_cons_none {W H a : ℤ} {k : Bool} {x : WordBox} {xs : List WordBox}
    (h : map_rotated_box_to_original x.left x.top x.width x.height x.text x.conf
        W H a = none) :
    extract_word_boxes_rotated W H a k (x :: xs) =
      extract_word_boxes_rotated W H a k xs := by
  simp [extract_word_boxes_rotated, h]

theorem extract_cons_skip {W H a : ℤ} {k : Bool} {x m : WordBox}
    {xs : List WordBox}
    (h : map_rotated_box_to_original x.left x.top x.width x.height x.text x.conf
        W H a = some m)
    (hc : k = true ∧ m.height < pyTrunc115 m.width) :
    extract_word_boxes_rotated W H a k (x :: xs) =
      extract_word_boxes_rotated W H a k xs := by
  simp only [extract_word_boxes_rotated, h]
  rw [if_pos hc]

theorem extract_cons_keep {W H a : ℤ} {k : Bool} {x m : WordBox}
    {xs : List WordBox}
    (h : map_rotated_box_to_original x.left x.top x.width x.height x.text x.conf
        W H a = some m)
    (hc : ¬ (k = true ∧ m.height < pyTrunc115 m.width)) :
    extract_word_boxes_rotated W H a k (x :: xs) =
      m :: extract_word_boxes_rotated W H a k xs := by
  simp only [extract_word_boxes_rotated, h]
  rw [if_neg hc]

/-- C7 counterexample: a box detected on the 90°-rotated copy of a 100×100
image maps to a box with mapped width 7 and mapped height 8; since
`int(7 * 1.15) = 8` (float truncation), the vertical scan **keeps** it even
though `8 < 1.15 × 7 = 8.05`, contradicting the claimed
"kept iff height ≥ 1.15 × width". -/
theorem extract_word_boxes_rotated_claim_fails :
    extract_word_boxes_rotated 100 100 90 true
        [ { left := 10, top := 10, width := 8, height := 7,
            text := "AB".toList, conf := 50 } ] =
      [ { left := 83, top := 10, width := 7, height := 8,
          text := "AB".toList, conf := 50 } ]
    ∧ ((8 : ℚ) < (115 / 100) * 7) := by
  constructor
  · decide
  · norm_num

/-- C7 (amended): a box is in the vertical set iff it is the image of some
detected box under the rotation mapping and its mapped height reaches the
float-truncated threshold `int(mapped_width * 1.15)` (instead of the exact
`1.15 ×` ratio the claim states). -/
theorem extract_word_boxes_rotated_keeps_iff
    (original_width original_height angle : ℤ) (raw : List WordBox)
    (b : WordBox) :
    b ∈ extract_word_boxes_rotated original_width original_height angle true raw ↔
      ∃ r ∈ raw,
        map_rotated_box_to_original r.left r.top r.width r.height r.text r.conf
            original_width original_height angle = some b
        ∧ pyTrunc115 b.width ≤ b.height := by
  induction raw with
  | nil => simp [extract_word_boxes_rotated]
  | cons x xs ih =>
    cases hmap : map_rotated_box_to_original x.left x.top x.width x.height x.text
        x.conf original_width original_height angle with
    | none =>
      rw [extract_cons_none hmap, ih]
      constructor
      · rintro ⟨r, hr, hm, hth⟩
        exact ⟨r, List.mem_cons_of_mem _ hr, hm, hth⟩
      · rintro ⟨r, hr, hm, hth⟩
        rcases List.mem_cons.mp hr with h | h
        · rw [h] at hm
          rw [hmap] at hm
          exact absurd hm (by simp)
        · exact ⟨r, h, hm, hth⟩
    | some m =>
      by_cases hth : m.height < pyTrunc115 m.width
      · rw [extract_cons_skip hmap ⟨rfl, hth⟩, ih]
        constructor
        · rintro ⟨r, hr, hm, hb⟩
          exact ⟨r, List.mem_cons_of_mem _ hr, hm, hb⟩
        · rintro ⟨r, hr, hm, hb⟩
          rcases List.mem_cons.mp hr with h | h
          · rw [h, hmap] at hm
            have hmb : m = b := by simpa using hm
            rw [hmb] at hth
            omega
          · exact ⟨r, h, hm, hb⟩
      · rw [extract_cons_keep hmap (by intro hc; exact hth hc.2)]
        constructor
        · intro hb
          rcases List.mem_cons.mp hb with h | h
          · refine ⟨x, List.mem_cons_self _ _, by rw [hmap, h], ?_⟩
            rw [h]
            omega
          · rcases ih.mp h with ⟨r, hr, hm, hb2⟩
            exact ⟨r, List.mem_cons_of_mem _ hr, hm, hb2⟩
        · rintro ⟨r, hr, hm, hb2⟩
          rcases List.mem_cons.mp hr with h | h
          · rw [h, hmap] at hm
            have hmb : m = b := by simpa using hm
            exact List.mem_cons.mpr (Or.inl hmb.symm)
          · exact List.mem_cons_of_mem _ (ih.mpr ⟨r, h, hm, hb2⟩)

/-! ### `_normalize_overlay_token` and `_prepare_overlay_words` -/

/-- Python `str.strip`: drop leading and trailing whitespace. -/
def pyStrip (cs : List Char) : List Char :=
  ((cs.dropWhile Char.isWhitespace).reverse.dropWhile Char.isWhitespace).reverse

/-- The single-character engineering-symbol substitutions of
`_normalize_overlay_token` (em/en dash and minus sign to hyphen,
multiplication and division signs, superscripts, degree sign removed). -/
def replaceSpecialChar (c : Char) : List Char :=
  if c == '\u2014' then ['-']
  else if c == '\u2013' then ['-']
  else if c == '\u2212' then ['-']
  else if c == '\u00d7' then ['x']
  else if c == '\u00f7' then ['/']
  else if c == '\u00b3' then ['3']
  else if c == '\u00b2' then ['2']
  else if c == '\u00b0' then []
  else [c]

/-- The keep-class `[A-Za-z0-9./:_+\\\-#%()]` of `_normalize_overlay_token`. -/
def isOverlayKeepChar (c : Char) : Bool :=
  isLatin c || c.isDigit || c == '.' || c == '/' || c == ':' || c == '_'
    || c == '+' || c == '\\' || c == '-' || c == '#' || c == '%'
    || c == '(' || c == ')'

/-- Does `pat` stand at the head of the second list? -/
def leadsWith : List Char → List Char → Bool
  | [], _ => true
  | _ :: _, [] => false
  | p :: ps, c :: cs => p == c && leadsWith ps cs

/-- Python `in` on strings: does `pat` occur contiguously anywhere? -/
def hasRun (pat : List Char) : List Char → Bool
  | [] => leadsWith pat []
  | c :: cs => leadsWith pat (c :: cs) || hasRun pat cs

/-- `_ENGINEERING_TOKEN_SPLITS`, in dict insertion order. -/
def engineering_token_splits : List (List Char × List Char) :=
  [ ("DESIGNCODE".toList, "DESIGN CODE".toList)
  , ("DESIGNTEMP".toList, "DESIGN TEMP".toList)
  , ("DESIGNPRESS".toList, "DESIGN PRESS".toList)
  , ("OPERATINGPRESS".toList, "OPERATING PRESS".toList)
  , ("OPERATINGTEMP".toList, "OPERATING TEMP".toList)
  , ("HYDROTESTPRESS".toList, "HYDRO TEST PRESS".toList)
  , ("PNEUMTESTPRESS".toList, "PNEUM TEST PRESS".toList)
  , ("RADIOGRAPHICEXAM".toList, "RADIOGRAPHIC EXAM".toList)
  , ("JOINTEFFICIENCY".toList, "JOINT EFFICIENCY".toList)
  , ("CORROSIONALLOW".toList, "CORROSION ALLOW".toList)
  , ("INTERNALCOATING".toList, "INTERNAL COATING".toList)
  , ("EXTERNALPAINT".toList, "EXTERNAL PAINT".toList)
  , ("FIREPROOFING".toList, "FIRE PROOFING".toList)
  , ("ACIDPICKLING".toList, "ACID PICKLING".toList)
  , ("FLOWRATE".toList, "FLOW RATE".toList)
  , ("EMPTYWEIGHT".toList, "EMPTY WEIGHT".toList)
  , ("FULLWATERWEIGHT".toList, "FULL WATER WEIGHT".toList) ]

/-- First split whose compact source occurs in `compact`, in dict order. -/
def findSplit : List (List Char × List Char) → List Char → Option (List Char)
  | [], _ => none
  | (src, rep) :: rest, compact =>
    if hasRun src compact then some rep else findSplit rest compact

/-- `_normalize_overlay_token(text)`. -/
def normalize_overlay_token (text : List Char) : List Char :=
  let cleaned0 := pyStrip text
  if cleaned0 = [] then []
  else
    let cleaned1 := (cleaned0.map replaceSpecialChar).flatten
    let cleaned2 := cleaned1.filter (fun c => !c.isWhitespace)
    let cleaned3 := cleaned2.filter isOverlayKeepChar
    if cleaned3.all (fun c => !(isLatin c || c.isDigit)) then []
    else
      let compact := (cleaned3.filter (fun c => isLatin c || c.isDigit)).map Char.toUpper
      match findSplit engineering_token_splits compact with
      | some rep => rep
      | none => cleaned3.take 96

example : normalize_overlay_token " m\u00b3/h ".toList = "m3/h".toList := by decide
example : normalize_overlay_token "TAG-101(A)".toList = "TAG-101(A)".toList := by decide
example :
    normalize_overlay_token "JOINTEFFICIENCY".toList = "JOINT EFFICIENCY".toList := by
  decide
example :
    normalize_overlay_token "JOINTEFFICIENCYSUS304".toList =
      "JOINT EFFICIENCY".toList := by decide
example : normalize_overlay_token "   ".toList = [] := by decide

/-- The overlay word built for a kept box: PDF-space x, (bottom-up) y,
box width and height clamped below by 2 points, and the normalized text. -/
def mkOverlayWord (page_height scale_x scale_y : ℚ) (b : WordBox) :
    ℚ × ℚ × ℚ × ℚ × List Char :=
  ( b.left * scale_x
  , page_height - (b.top + b.height) * scale_y
  , max 2 (b.width * scale_x)
  , max 2 (b.height * scale_y)
  , normalize_overlay_token b.text )

/-- The selection loop of `_prepare_overlay_words` over the
confidence-ranked boxes: skip boxes with confidence below 15 or empty
normalized text, deduplicate on `(normalized, left // 5, top // 5)`, stop
once 3500 words are selected. -/
def prepAux (page_height scale_x scale_y : ℚ) :
    List WordBox → List (List Char × ℤ × ℤ) → ℕ → List (ℚ × ℚ × ℚ × ℚ × List Char)
  | [], _, _ => []
  | b :: rest, seen, n =>
    if b.conf < 15 then prepAux page_height scale_x scale_y rest seen n
    else
      let normalized := normalize_overlay_token b.text
      if normalized = [] then prepAux page_height scale_x scale_y rest seen n
      else
        let key := (normalized, b.left.fdiv 5, b.top.fdiv 5)
        if key ∈ seen then prepAux page_height scale_x scale_y rest seen n
        else
          let w := mkOverlayWord page_height scale_x scale_y b
          if 3500 ≤ n + 1 then [w]
          else w :: prepAux page_height scale_x scale_y rest (key :: seen) (n + 1)

/-- One step of the stable descending-by-confidence sort that models
`sorted(boxes, key=conf, reverse=True)` (Python's sort is stable; any stable
sort computes the same list, so an insertion sort is used for
executability): `b` goes in front of the first element whose confidence does
not exceed it. -/
def insertRanked (b : WordBox) : List WordBox → List WordBox
  | [] => [b]
  | x :: xs => if x.conf ≤ b.conf then b :: x :: xs else x :: insertRanked b xs

/-- `sorted(boxes, key=lambda item: item[5], reverse=True)`, stable. -/
def rankByConf (boxes : List WordBox) : List WordBox :=
  boxes.foldr insertRanked []

theorem mem_insertRanked {b y : WordBox} {l : List WordBox} :
    y ∈ insertRanked b l ↔ y = b ∨ y ∈ l := by
  induction l with
  | nil => simp [insertRanked]
  | cons x xs ih =>
    simp only [insertRanked]
    by_cases h : x.conf ≤ b.conf
    · rw [if_pos h]
      simp
    · rw [if_neg h]
      simp only [List.mem_cons, ih]
      tauto

theorem mem_rankByConf {y : WordBox} {l : List WordBox} :
    y ∈ rankByConf l ↔ y ∈ l := by
  induction l with
  | nil => simp [rankByConf]
  | cons x xs ih =>
    simp only [rankByConf, List.foldr_cons] at ih ⊢
    rw [mem_insertRanked, ih]
    simp

/-- `_prepare_overlay_words(boxes, page_width, page_height, image_width,
image_height)`: guard against non-positive dimensions, rank by confidence
(descending, stable), then run the selection loop. -/
def prepare_overlay_words (boxes : List WordBox) (page_width page_height : ℚ)
    (image_width image_height : ℤ) : List (ℚ × ℚ × ℚ × ℚ × List Char) :=
  if image_width ≤ 0 ∨ image_height ≤ 0 ∨ page_width ≤ 0 ∨ page_height ≤ 0 then []
  else
    let scale_x := page_width / image_width
    let scale_y := page_height / image_height
    prepAux page_height scale_x scale_y (rankByConf boxes) [] 0

example :
    (prepare_overlay_words
      [ { left := 10, top := 10, width := 20, height := 10,
          text := "TAG-101".toList, conf := 90 }
      , { left := 11, top := 10, width := 20, height := 10,
          text := "TAG-101".toList, conf := 80 }
      , { left := 30, top := 20, width := 10, height := 8,
          text := "###".toList, conf := 95 } ]
      100 200 50 100).length = 1 := by decide

/-- The selection loop emits at most `3500 - n` more words. -/
theorem prepAux_length_le (page_height scale_x scale_y : ℚ) :
    ∀ (l : List WordBox) (seen : List (List Char × ℤ × ℤ)) (n : ℕ),
      n < 3500 →
      (prepAux page_height scale_x scale_y l seen n).length ≤ 3500 - n := by
  intro l
  induction l with
  | nil => intro seen n _; simp [prepAux]
  | cons b rest ih =>
    intro seen n hn
    simp only [prepAux]
    split_ifs with h1 h2 h3 h4
    · exact ih seen n hn
    · exact ih seen n hn
    · exact ih seen n hn
    · simp only [List.length_singleton]
      omega
    · simp only [List.length_cons]
      have := ih ((normalize_overlay_token b.text, b.left.fdiv 5, b.top.fdiv 5) :: seen)
        (n + 1) (by omega)
      omega

/-- Every word the selection loop emits comes from a box in the scanned
list whose confidence is at least 15. -/
theorem prepAux_mem (page_height scale_x scale_y : ℚ) :
    ∀ (l : List WordBox) (seen : List (List Char × ℤ × ℤ)) (n : ℕ)
      (w : ℚ × ℚ × ℚ × ℚ × List Char),
      w ∈ prepAux page_height scale_x scale_y l seen n →
      ∃ b ∈ l, (15 : ℚ) ≤ b.conf ∧ w = mkOverlayWord page_height scale_x scale_y b := by
  intro l
  induction l with
  | nil => intro seen n w hw; simp [prepAux] at hw
  | cons b rest ih =>
    intro seen n w hw
    simp only [prepAux] at hw
    split_ifs at hw with h1 h2 h3 h4
    · rcases ih seen n w hw with ⟨b2, hb2, hc, hweq⟩
      exact ⟨b2, List.mem_cons_of_mem _ hb2, hc, hweq⟩
    · rcases ih seen n w hw with ⟨b2, hb2, hc, hweq⟩
      exact ⟨b2, List.mem_cons_of_mem _ hb2, hc, hweq⟩
    · rcases ih seen n w hw with ⟨b2, hb2, hc, hweq⟩
      exact ⟨b2, List.mem_cons_of_mem _ hb2, hc, hweq⟩
    · rw [List.mem_singleton] at hw
      exact ⟨b, List.mem_cons_self _ _, by push_neg at h1; exact h1, hw⟩
    · rcases List.mem_cons.mp hw with h | h
      · exact ⟨b, List.mem_cons_self _ _, by push_neg at h1; exact h1, h⟩
      · rcases ih _ _ _ h with ⟨b2, hb2, hc, hweq⟩
        exact ⟨b2, List.mem_cons_of_mem _ hb2, hc, hweq⟩

/-- C8: for positive page and image dimensions, `_prepare_overlay_words`
returns at most 3500 overlay words, and every returned word originates from
an input box whose confidence is at least 15. -/
theorem prepare_overlay_words_bounded (boxes : List WordBox)
    (page_width page_height : ℚ) (image_width image_height : ℤ)
    (hpw : 0 < page_width) (hph : 0 < page_height)
    (hiw : 0 < image_width) (hih : 0 < image_height) :
    (prepare_overlay_words boxes page_width page_height
        image_width image_height).length ≤ 3500
    ∧ ∀ w ∈ prepare_overlay_words boxes page_width page_height
        image_width image_height,
        ∃ b ∈ boxes, (15 : ℚ) ≤ b.conf
          ∧ w = mkOverlayWord page_height (page_width / image_width)
              (page_height / image_height) b := by
  have hguard : ¬ (image_width ≤ 0 ∨ image_height ≤ 0
      ∨ page_width ≤ 0 ∨ page_height ≤ 0) := by
    push_neg
    exact ⟨hiw, hih, hpw, hph⟩
  constructor
  · simp only [prepare_overlay_words, if_neg hguard]
    simpa using prepAux_length_le page_height _ _ _ [] 0 (by omega)
  · intro w hw
    simp only [prepare_overlay_words, if_neg hguard] at hw
    rcases prepAux_mem page_height _ _ _ [] 0 w hw with ⟨b, hb, hc, hweq⟩
    exact ⟨b, mem_rankByConf.mp hb, hc, hweq⟩

/-- Concrete input for the C8 witness. -/
def overlayWitnessBoxes : List WordBox :=
  [ { left := 10, top := 10, width := 20, height := 10,
      text := "TAG-101".toList, conf := 90 }
  , { left := 30, top := 20, width := 10, height := 8,
      text := "###".toList, conf := 95 } ]

/-- Witness for C8 at a concrete input. -/
theorem prepare_overlay_words_bounded_witness :
    ((0 : ℚ) < 100 ∧ (0 : ℚ) < 200 ∧ (0 : ℤ) < 50 ∧ (0 : ℤ) < 100)
    ∧ (prepare_overlay_words overlayWitnessBoxes 100 200 50 100).length ≤ 3500
    ∧ ∀ w ∈ prepare_overlay_words overlayWitnessBoxes 100 200 50 100,
        ∃ b ∈ overlayWitnessBoxes,
          (15 : ℚ) ≤ b.conf ∧ w = mkOverlayWord 200 (100 / 50) (200 / 100) b := by
  refine ⟨⟨by norm_num, by norm_num, by norm_num, by norm_num⟩, ?_⟩
  exact prepare_overlay_words_bounded overlayWitnessBoxes 100 200 50 100
    (by norm_num) (by norm_num) (by norm_num) (by norm_num)

/-! ### `_inject_hidden_text_lines` -/

/-- The placement loop of `_inject_hidden_text_lines`: starting at
`y = 8.0`, each line becomes one invisible overlay word
`(8.0, y, max(20.0, page_width - 16.0), 6.0, line)` until `y` passes
`max(8.0, page_height - 8.0)` or 180 words have been placed; `y` advances by
5.8 points per line (the float literal `5.8` is modelled as the rational
`29/5`; the bounds proved here do not depend on the step size). -/
def injectLoopWords (page_width page_height : ℚ) :
    List (List Char) → ℚ → ℕ → List (ℚ × ℚ × ℚ × ℚ × List Char)
  | [], _, _ => []
  | line :: rest, y, n =>
    if max 8 (page_height - 8) < y then []
    else
      let w := (8, y, max 20 (page_width - 16), 6, line)
      if 180 ≤ n + 1 then [w]
      else w :: injectLoopWords page_width page_height rest (y + 29 / 5) (n + 1)

/-- `_inject_hidden_text_lines(page_pdf, lines)`, modelled from the page's
media-box dimensions onward (opening the PDF and merging the overlay are the
external pikepdf collaborators); returns the number of invisible lines
placed, exactly as the Python function returns `len(overlay_words)` (or 0
when `lines` is empty). -/
def inject_hidden_text_lines (page_width page_height : ℚ)
    (lines : List (List Char)) : ℕ :=
  if lines = [] then 0
  else (injectLoopWords page_width page_height lines 8 0).length

/-- The placement loop emits at most `180 - n` more words and at most one
word per remaining line. -/
theorem injectLoopWords_length_le (page_width page_height : ℚ) :
    ∀ (lines : List (List Char)) (y : ℚ) (n : ℕ),
      n < 180 →
      (injectLoopWords page_width page_height lines y n).length ≤ 180 - n
        ∧ (injectLoopWords page_width page_height lines y n).length ≤ lines.length := by
  intro lines
  induction lines with
  | nil => intro y n _; simp [injectLoopWords]
  | cons line rest ih =>
    intro y n hn
    simp only [injectLoopWords]
    split_ifs with h1 h2
    · simp
    · simp only [List.length_cons, List.length_nil]
      omega
    · simp only [List.length_cons]
      have := ih (y + 29 / 5) (n + 1) (by omega)
      omega

/-- C10: `_inject_hidden_text_lines` places at most 180 invisible lines and
returns a count bounded by 180 and by the number of input lines. -/
theorem inject_hidden_text_lines_bounded (page_width page_height : ℚ)
    (lines : List (List Char)) :
    inject_hidden_text_lines page_width page_height lines ≤ 180
    ∧ inject_hidden_text_lines page_width page_height lines ≤ lines.length := by
  by_cases h : lines = []
  · simp [inject_hidden_text_lines, h]
  · simp only [inject_hidden_text_lines, if_neg h]
    have := injectLoopWords_length_le page_width page_height lines 8 0 (by omega)
    omega

/-! ### Best-candidate tracking in `_run_ocr_attempts_for_page`

The OCR invocation and text extraction are the external collaborators; the
loop is modelled over the list of per-profile `Analysis` results, in attempt
order.  The loop keeps `best_selection_score` (initially `-1`) and replaces
the best candidate exactly when `selection_score > best_selection_score`. -/

/-- The accumulator loop of `_run_ocr_attempts_for_page`: `i` is the index
of the next attempt, `best` the currently selected `(index, analysis)` pair
(`none` initially), `bestSel` the current `best_selection_score`. -/
def selectBestAux (drawing : Bool) :
    List Analysis → ℕ → Option (ℕ × Analysis) → ℤ → Option (ℕ × Analysis)
  | [], _, best, _ => best
  | a :: rest, i, best, bestSel =>
    if bestSel < candidate_selection_score a drawing then
      selectBestAux drawing rest (i + 1) (some (i, a))
        (candidate_selection_score a drawing)
    else
      selectBestAux drawing rest (i + 1) best bestSel

/-- The best-candidate selection of `_run_ocr_attempts_for_page` (the
function raises when no candidate was produced, i.e. returns `none` here
only for an empty profile list). -/
def run_ocr_attempts_select_best (drawing : Bool) (analyses : List Analysis) :
    Option (ℕ × Analysis) :=
  selectBestAux drawing analyses 0 none (-1)

/-- Specification recursion: the first index (relative to the current
position) whose selection score strictly exceeds the running threshold,
iterated to the end of the list. -/
def bestFrom (drawing : Bool) (t : ℤ) : List Analysis → Option (ℕ × Analysis)
  | [] => none
  | a :: rest =>
    if t < candidate_selection_score a drawing then
      match bestFrom drawing (candidate_selection_score a drawing) rest with
      | none => some (0, a)
      | some (j, b) => some (j + 1, b)
    else
      match bestFrom drawing t rest with
      | none => none
      | some (j, b) => some (j + 1, b)

theorem candidate_selection_score_nonneg (a : Analysis) (drawing : Bool) :
    0 ≤ candidate_selection_score a drawing := by
  unfold candidate_selection_score
  split_ifs <;> positivity

theorem bestFrom_none_sel_le (drawing : Bool) :
    ∀ (l : List Analysis) (t : ℤ), bestFrom drawing t l = none →
      ∀ c ∈ l, candidate_selection_score c drawing ≤ t := by
  intro l
  induction l with
  | nil => intro t _ c hc; simp at hc
  | cons a rest ih =>
    intro t hnone c hc
    simp only [bestFrom] at hnone
    split_ifs at hnone with h1
    · cases h2 : bestFrom drawing (candidate_selection_score a drawing) rest with
      | none => rw [h2] at hnone; exact absurd hnone (by simp)
      | some jb => rw [h2] at hnone; exact absurd hnone (by simp)
    · cases h2 : bestFrom drawing t rest with
      | none =>
        rcases List.mem_cons.mp hc with h | h
        · rw [h]; omega
        · exact ih t h2 c h
      | some jb => rw [h2] at hnone; exact absurd hnone (by simp)

theorem selectBestAux_of_bestFrom_none (drawing : Bool) :
    ∀ (l : List Analysis) (t : ℤ) (i : ℕ) (best : Option (ℕ × Analysis)),
      bestFrom drawing t l = none →
      selectBestAux drawing l i best t = best := by
  intro l
  induction l with
  | nil => intro t i best _; rfl
  | cons a rest ih =>
    intro t i best hnone
    simp only [bestFrom] at hnone
    simp only [selectBestAux]
    split_ifs at hnone ⊢ with h1
    · cases h2 : bestFrom drawing (candidate_selection_score a drawing) rest with
      | none => rw [h2] at hnone; exact absurd hnone (by simp)
      | some jb => rw [h2] at hnone; exact absurd hnone (by simp)
    · cases h2 : bestFrom drawing t rest with
      | none => exact ih t (i + 1) best h2
      | some jb => rw [h2] at hnone; exact absurd hnone (by simp)

theorem selectBestAux_of_bestFrom_some (drawing : Bool) :
    ∀ (l : List Analysis) (t : ℤ) (j : ℕ) (b : Analysis) (i : ℕ)
      (best : Option (ℕ × Analysis)),
      bestFrom drawing t l = some (j, b) →
      selectBestAux drawing l i best t = some (i + j, b) := by
  intro l
  induction l with
  | nil => intro t j b i best hsome; simp [bestFrom] at hsome
  | cons a rest ih =>
    intro t j b i best hsome
    simp only [bestFrom] at hsome
    simp only [selectBestAux]
    split_ifs at hsome ⊢ with h1
    · cases h2 : bestFrom drawing (candidate_selection_score a drawing) rest with
      | none =>
        rw [h2] at hsome
        simp only [Option.some.injEq, Prod.mk.injEq] at hsome
        rw [selectBestAux_of_bestFrom_none drawing rest _ (i + 1) _ h2]
        rw [← hsome.1, ← hsome.2]
        simp
      | some jb =>
        rw [h2] at hsome
        simp only [Option.some.injEq, Prod.mk.injEq] at hsome
        have := ih (candidate_selection_score a drawing) jb.1 jb.2 (i + 1)
          (some (i, a)) (by rw [h2])
        rw [this, ← hsome.2]
        have : i + 1 + jb.1 = i + (jb.1 + 1) := by omega
        rw [this, hsome.1]
    · cases h2 : bestFrom drawing t rest with
      | none => rw [h2] at hsome; exact absurd hsome (by simp)
      | some jb =>
        rw [h2] at hsome
        simp only [Option.some.injEq, Prod.mk.injEq] at hsome
        have := ih t jb.1 jb.2 (i + 1) best (by rw [h2])
        rw [this, ← hsome.2]
        have : i + 1 + jb.1 = i + (jb.1 + 1) := by omega
        rw [this, hsome.1]

theorem bestFrom_some_spec (drawing : Bool) :
    ∀ (l : List Analysis) (t : ℤ) (j : ℕ) (b : Analysis),
      bestFrom drawing t l = some (j, b) →
      l.get? j = some b
      ∧ t < candidate_selection_score b drawing
      ∧ (∀ (k : ℕ) (c : Analysis), l.get? k = some c →
          candidate_selection_score c drawing ≤ candidate_selection_score b drawing)
      ∧ (∀ (k : ℕ) (c : Analysis), k < j → l.get? k = some c →
          candidate_selection_score c drawing < candidate_selection_score b drawing) := by
  intro l
  induction l with
  | nil => intro t j b hsome; simp [bestFrom] at hsome
  | cons a rest ih =>
    intro t j b hsome
    simp only [bestFrom] at hsome
    split_ifs at hsome with h1
    · cases h2 : bestFrom drawing (candidate_selection_score a drawing) rest with
      | none =>
        rw [h2] at hsome
        simp only [Option.some.injEq, Prod.mk.injEq] at hsome
        rcases hsome with ⟨hj, hb⟩
        subst hj
        subst hb
        refine ⟨rfl, h1, ?_, ?_⟩
        · intro k c hk
          cases k with
          | zero =>
            simp only [List.get?_cons_zero, Option.some.injEq] at hk
            rw [hk]
          | succ k2 =>
            simp only [List.get?_cons_succ] at hk
            exact bestFrom_none_sel_le drawing rest _ h2 c (List.get?_mem hk)
        · intro k c hk
          omega
      | some jb =>
        rw [h2] at hsome
        simp only [Option.some.injEq, Prod.mk.injEq] at hsome
        rcases hsome with ⟨hj, hb⟩
        rcases ih (candidate_selection_score a drawing) jb.1 jb.2
          (by rw [h2]) with ⟨hget, hlt, hall, hbefore⟩
        subst hb
        refine ⟨?_, lt_trans h1 hlt, ?_, ?_⟩
        · rw [← hj]
          simpa using hget
        · intro k c hk
          cases k with
          | zero =>
            simp only [List.get?_cons_zero, Option.some.injEq] at hk
            rw [← hk]
            exact le_of_lt hlt
          | succ k2 =>
            simp only [List.get?_cons_succ] at hk
            exact hall k2 c hk
        · intro k c hklt hk
          cases k with
          | zero =>
            simp only [List.get?_cons_zero, Option.some.injEq] at hk
            rw [← hk]
            exact hlt
          | succ k2 =>
            simp only [List.get?_cons_succ] at hk
            exact hbefore k2 c (by omega) hk
    · cases h2 : bestFrom drawing t rest with
      | none => rw [h2] at hsome; exact absurd hsome (by simp)
      | some jb =>
        rw [h2] at hsome
        simp only [Option.some.injEq, Prod.mk.injEq] at hsome
        rcases hsome with ⟨hj, hb⟩
        rcases ih t jb.1 jb.2 (by rw [h2]) with ⟨hget, hlt, hall, hbefore⟩
        subst hb
        have hat : candidate_selection_score a drawing ≤ t := by omega
        refine ⟨?_, hlt, ?_, ?_⟩
        · rw [← hj]
          simpa using hget
        · intro k c hk
          cases k with
          | zero =>
            simp only [List.get?_cons_zero, Option.some.injEq] at hk
            rw [← hk]
            exact le_of_lt (lt_of_le_of_lt hat hlt)
          | succ k2 =>
            simp only [List.get?_cons_succ] at hk
            exact hall k2 c hk
        · intro k c hklt hk
          cases k with
          | zero =>
            simp only [List.get?_cons_zero, Option.some.injEq] at hk
            rw [← hk]
            exact lt_of_le_of_lt hat hlt
          | succ k2 =>
            simp only [List.get?_cons_succ] at hk
            exact hbefore k2 c (by omega) hk

/-- C6: for a non-empty attempt list, the tracked best candidate is the
attempt with the strictly highest selection score, and among equal
selection scores the earliest attempt index wins: the selected index
maximises the score and every earlier attempt scores strictly lower. -/
theorem run_ocr_attempts_select_best_spec (drawing : Bool)
    (analyses : List Analysis) (hne : analyses ≠ []) :
    ∃ (i : ℕ) (a : Analysis),
      run_ocr_attempts_select_best drawing analyses = some (i, a)
      ∧ analyses.get? i = some a
      ∧ (∀ (j : ℕ) (b : Analysis), analyses.get? j = some b →
          candidate_selection_score b drawing ≤ candidate_selection_score a drawing)
      ∧ (∀ (j : ℕ) (b : Analysis), j < i → analyses.get? j = some b →
          candidate_selection_score b drawing < candidate_selection_score a drawing) := by
  cases h : bestFrom drawing (-1) analyses with
  | none =>
    cases analyses with
    | nil => exact absurd rfl hne
    | cons a rest =>
      have := bestFrom_none_sel_le drawing (a :: rest) (-1) h a
        (List.mem_cons_self _ _)
      have := candidate_selection_score_nonneg a drawing
      omega
  | some jb =>
    rcases bestFrom_some_spec drawing analyses (-1) jb.1 jb.2 (by rw [h])
      with ⟨hget, _, hall, hbefore⟩
    refine ⟨jb.1, jb.2, ?_, hget, hall, hbefore⟩
    have := selectBestAux_of_bestFrom_some drawing analyses (-1) jb.1 jb.2 0 none
      (by rw [h])
    simpa [run_ocr_attempts_select_best] using this

/-- Concrete input for the C6 witness: three attempts with selection
scores 10, 30 and 30. -/
def attemptWitnessAnalyses : List Analysis :=
  [ { score := 10, alnum_chars := 10, token_count := 0,
      eng_token_count := 0, numeric_token_count := 0 }
  , { score := 30, alnum_chars := 30, token_count := 0,
      eng_token_count := 0, numeric_token_count := 0 }
  , { score := 30, alnum_chars := 30, token_count := 0,
      eng_token_count := 0, numeric_token_count := 0 } ]

/-- Witness for C6 at a concrete input: the second attempt (the first of
the two maximal ones) is selected. -/
theorem run_ocr_attempts_select_best_spec_witness :
    attemptWitnessAnalyses ≠ []
    ∧ ∃ (i : ℕ) (a : Analysis),
      run_ocr_attempts_select_best false attemptWitnessAnalyses = some (i, a)
      ∧ attemptWitnessAnalyses.get? i = some a
      ∧ (∀ (j : ℕ) (b : Analysis), attemptWitnessAnalyses.get? j = some b →
          candidate_selection_score b false ≤ candidate_selection_score a false)
      ∧ (∀ (j : ℕ) (b : Analysis), j < i →
          attemptWitnessAnalyses.get? j = some b →
          candidate_selection_score b false < candidate_selection_score a false) := by
  refine ⟨by decide, ?_⟩
  exact run_ocr_attempts_select_best_spec false attemptWitnessAnalyses (by decide)

example :
    run_ocr_attempts_select_best false attemptWitnessAnalyses =
      some (1, { score := 30, alnum_chars := 30, token_count := 0,
                 eng_token_count := 0, numeric_token_count := 0 }) := by decide

end LizaCodexPdf
